import Mathlib

/-!
Verification of the ai-editor-2.0 worker pipeline.

This file gives a shallow embedding, in Lean 4, of the pure core of the
worker code (slot selection, prefilter, ingest deduplication, chunked LLM
calls, image-generation fan-out and HTML escaping) and proves or refutes
the specification claims about it.

Conventions used throughout:
* Python strings are modelled as `String` where only equality matters and as
  `List Char` where character-level rewriting matters.
* `datetime.now(EST)` is modelled by passing the current civil day number
  (respectively weekday) as an explicit argument; a civil day is a `Nat`
  whose weekday is its value mod 7, with `0 = Monday` matching Python's
  `datetime.weekday()`.  Airtable's `WEEKDAY()` convention (`0 = Sunday`)
  is used where the code builds Airtable formulas.
* Fallible external calls are modelled by explicit outcome arguments.
-/

namespace AiEditor

/-! ## Slot selection: issue-date arithmetic (`workers/jobs/slot_selection.py`)

`get_next_issue_date` reads the current civil date in the module's
configured timezone `EST = timezone(timedelta(hours=-5))` and computes the
date of the next issue from its weekday.  We model the current EST civil
date as a day number `n : Nat` with `pyWeekday n = n % 7`, `0 = Monday`,
…, `4 = Friday`, `5 = Saturday`, `6 = Sunday` (Python's convention). -/

/-- Python `datetime.weekday()`: 0 = Monday … 6 = Sunday. -/
def pyWeekday (n : Nat) : Nat := n % 7

/-- `get_next_issue_date` (slot_selection.py lines 56-67): from the current
EST civil day `n`, Friday runs add 3 days, Saturday runs add 2 days, every
other weekday adds 1 day.  Returns the issue's civil day number. -/
def get_next_issue_date (n : Nat) : Nat :=
  if pyWeekday n = 4 then n + 3
  else if pyWeekday n = 5 then n + 2
  else n + 1

/-- A publishing day is a weekday Mon-Fri. -/
def isPublishingDay (n : Nat) : Prop := n % 7 ≤ 4

instance (n : Nat) : Decidable (isPublishingDay n) := by
  unfold isPublishingDay; infer_instance

/-- C1: the issue date computed by `get_next_issue_date` from the civil day
`n` (taken in the configured civil timezone, not UTC) is the next
publishing day (Mon-Fri) strictly after `n`: Friday (`n % 7 = 4`) and
Saturday (`n % 7 = 5`) runs both yield the following Monday, and every
other weekday yields the next calendar day. -/
theorem next_issue_date_is_next_publishing_day (n : Nat) :
    n < get_next_issue_date n ∧
    isPublishingDay (get_next_issue_date n) ∧
    (∀ m, n < m → m < get_next_issue_date n → ¬ isPublishingDay m) ∧
    (pyWeekday n = 4 → get_next_issue_date n = n + 3 ∧ pyWeekday (get_next_issue_date n) = 0) ∧
    (pyWeekday n = 5 → get_next_issue_date n = n + 2 ∧ pyWeekday (get_next_issue_date n) = 0) ∧
    (pyWeekday n ≠ 4 → pyWeekday n ≠ 5 → get_next_issue_date n = n + 1) := by
  unfold get_next_issue_date isPublishingDay pyWeekday
  refine ⟨?_, ?_, ?_, ?_, ?_, ?_⟩
  · split_ifs <;> omega
  · split_ifs <;> omega
  · intro m h1 h2
    split_ifs at h2 <;> omega
  · intro h; simp [h]; omega
  · intro h
    have h4 : n % 7 ≠ 4 := by omega
    simp [h, h4]; omega
  · intro h4 h5; simp only [h4, h5]; rfl

/-- Witness for C1: a Friday run (day 4 with Monday epoch) yields the
following Monday, three days later. -/
theorem next_issue_date_is_next_publishing_day_witness :
    4 < get_next_issue_date 4 ∧ isPublishingDay (get_next_issue_date 4) ∧
    get_next_issue_date 4 = 7 := by
  refine ⟨(next_issue_date_is_next_publishing_day 4).1,
          (next_issue_date_is_next_publishing_day 4).2.1, ?_⟩
  exact ((next_issue_date_is_next_publishing_day 4).2.2.2.1 (by decide)).1

/-! ## Slot selection: freshness windows (C4)

`AirtableClient.get_prefilter_candidates` (airtable.py lines 486-498)
builds one hard-coded Airtable filter formula per slot; the window in
hours is a function of the slot and of Airtable's `WEEKDAY(NOW())`
(`0 = Sunday`, `1 = Monday`).  The `freshness_days` argument is not used
by the formulas.  `get_signal_candidates` (airtable.py line 1099) uses
`DATEADD(NOW(), -freshness_hours, 'hours')` with the hours taken from
`SIGNAL_SLOT_FRESHNESS_HOURS` (signal_slot_selection.py lines 34-40). -/

/-- Window, in hours, of the Airtable formula built by
`get_prefilter_candidates` for a given slot and Airtable weekday
(`0 = Sunday`, `1 = Monday`, …).  Slots 3 and 5 use
`DATEADD(TODAY(), -7, 'days')`, i.e. a 7-day (168 h) window. -/
def pivotFetchWindowHours (slot wd : Nat) : Nat :=
  if slot = 1 then (if wd = 0 ∨ wd = 1 then 72 else 24)
  else if slot = 2 then (if wd = 0 ∨ wd = 1 then 72 else 48)
  else if slot = 4 then (if wd = 0 ∨ wd = 1 then 72 else 48)
  else 168

/-- `SIGNAL_SLOT_FRESHNESS_HOURS.get(slot, 72)`
(signal_slot_selection.py lines 34-40 and 266). -/
def signalSlotFreshnessHours (slot : Nat) : Nat :=
  if slot = 1 then 24
  else if slot = 2 then 72
  else if slot = 3 then 72
  else if slot = 4 then 72
  else if slot = 5 then 72
  else 72

/-- `BASE_SLOT_FRESHNESS.get(slot, 7)` (slot_selection.py lines 24-30, 89),
in days. -/
def baseSlotFreshness (slot : Nat) : Nat :=
  if slot = 1 then 1
  else if slot = 2 then 2
  else if slot = 3 then 7
  else if slot = 4 then 2
  else if slot = 5 then 7
  else 7

/-- `get_slot_freshness` (slot_selection.py lines 75-99) as a function of
the slot and the Python EST weekday (`6 = Sunday`, `0 = Monday`): on
Sunday/Monday runs, bases of at most 2 days are extended to 3 days. -/
def get_slot_freshness (slot wdPy : Nat) : Nat :=
  let base := baseSlotFreshness slot
  if (wdPy = 6 ∨ wdPy = 0) ∧ base ≤ 2 then 3 else base

/-- The Pivot 5 base windows claimed by the spec, in hours:
`{1: 24h, 2: 48h, 3: 7d, 4: 48h, 5: 7d}`. -/
def specPivotBaseHours (slot : Nat) : Nat :=
  if slot = 1 then 24
  else if slot = 2 then 48
  else if slot = 3 then 168
  else if slot = 4 then 48
  else 168

/-- C4: for every slot 1-5 and every weekday, the window of the fetch
formula equals the spec base, except that on Sunday/Monday runs every
base of at most 48 h is extended to 72 h; the Signal variant uses 24 h
for slot 1 and 72 h for every other slot, with no weekend extension. -/
theorem slot_freshness_windows (slot wd : Nat)
    (h1 : 1 ≤ slot) (h5 : slot ≤ 5) (hwd : wd < 7) :
    pivotFetchWindowHours slot wd =
      (if (wd = 0 ∨ wd = 1) ∧ specPivotBaseHours slot ≤ 48 then 72
       else specPivotBaseHours slot) ∧
    signalSlotFreshnessHours slot = (if slot = 1 then 24 else 72) ∧
    get_slot_freshness slot (if wd = 0 then 6 else wd - 1) * 24 =
      (if (wd = 0 ∨ wd = 1) ∧ specPivotBaseHours slot ≤ 48 then 72
       else specPivotBaseHours slot) := by
  interval_cases slot <;> interval_cases wd <;> decide

/-- Witness for C4: slot 2 on a Sunday run gets a 72-hour window, and the
Signal variant uses 72 hours there. -/
theorem slot_freshness_windows_witness :
    pivotFetchWindowHours 2 0 = 72 ∧ signalSlotFreshnessHours 2 = 72 := by
  refine ⟨?_, ?_⟩
  · have h := (slot_freshness_windows 2 0 (by decide) (by decide) (by decide)).1
    simpa using h
  · have h := (slot_freshness_windows 2 0 (by decide) (by decide) (by decide)).2.1
    simpa using h

/-! ## Slot selection: the prefilter duplicate check (C2)

`select_slots` (slot_selection.py lines 186-217) filters each slot's
candidate list with `is_duplicate`, built from the data extracted by
`_extract_recent_issues_data` (lines 397-418) and the run's cumulative
`selectedToday` list.  A candidate's fields are modelled by their
`storyID`, `headline` and `pivotId` with `""` for a missing field
(matching Python's falsiness checks). -/

/-- A candidate record's relevant fields (`storyID`, `headline`,
`pivotId`), with `""` standing for a missing field. -/
structure CandFields where
  storyID : String
  headline : String
  pivotId : String
deriving DecidableEq, Repr

/-- Python `str.strip()` on a character list: drop whitespace from both
ends. -/
def pyStripChars (l : List Char) : List Char :=
  ((l.dropWhile Char.isWhitespace).reverse.dropWhile Char.isWhitespace).reverse

/-- Python `s.lower().strip()`, as used for headline comparison. -/
def pyLowerStrip (s : String) : String :=
  String.mk (pyStripChars (s.toList.map Char.toLower))

/-- One recent issue, as consumed by `_extract_recent_issues_data`: per
slot a triple `(slot_i_headline, slot_i_storyId, slot_i_pivotId)` with
`""` for missing fields. -/
def IssueSlots : Type := List (String × String × String)

/-- `_extract_recent_issues_data`, headline part (lines 401-407): headlines
of all slots of all issues, keeping only truthy (nonempty) values. -/
def recentHeadlinesRaw (issues : List IssueSlots) : List String :=
  issues.flatMap fun iss => (iss.map (·.1)).filter (· ≠ "")

/-- `_extract_recent_issues_data`, storyId part (lines 403, 415-416). -/
def recentStoryIds (issues : List IssueSlots) : List String :=
  issues.flatMap fun iss => (iss.map (fun t => t.2.1)).filter (· ≠ "")

/-- `_extract_recent_issues_data`, pivotId part (lines 404, 417-418). -/
def recentPivotIds (issues : List IssueSlots) : List String :=
  issues.flatMap fun iss => (iss.map (fun t => t.2.2)).filter (· ≠ "")

/-- Line 191: `set(h.lower().strip() for h in recent_data['headlines'] if h)`. -/
def recentHeadlineSet (headlines : List String) : List String :=
  (headlines.filter (· ≠ "")).map pyLowerStrip

/-- `is_duplicate` (slot_selection.py lines 196-212): `excludedIds` is
`recent_story_ids | selected_today`.  The headline check fires only when
the lowered-stripped headline is truthy (nonempty); likewise the pivotId
check. -/
def is_duplicate (excludedIds recentHeadlines recentPivots : List String)
    (c : CandFields) : Bool :=
  if c.storyID ∈ excludedIds then true
  else if pyLowerStrip c.headline ≠ "" ∧ pyLowerStrip c.headline ∈ recentHeadlines then true
  else if c.pivotId ≠ "" ∧ c.pivotId ∈ recentPivots then true
  else false

/-- Lines 214-217: the per-slot candidate filter. -/
def availableCandidates (excludedIds recentHeadlines recentPivots : List String)
    (candidates : List CandFields) : List CandFields :=
  candidates.filter fun c => ! is_duplicate excludedIds recentHeadlines recentPivots c

/-- C2 counterexample: with a recent issue whose slot headline is the
whitespace string `" "` (truthy, so it enters the extracted headline
list and normalises to `""`), a candidate with an empty headline is NOT
removed by `is_duplicate`, although its trimmed lowercased headline
(`""`) is in the 14-day headline set — refuting the claimed
"if and only if". -/
theorem is_duplicate_claim_counterexample :
    is_duplicate
      (recentStoryIds [[(" ", "", "")]])
      (recentHeadlineSet (recentHeadlinesRaw [[(" ", "", "")]]))
      (recentPivotIds [[(" ", "", "")]])
      ⟨"x", "", ""⟩ = false
    ∧ pyLowerStrip "" ∈ recentHeadlineSet (recentHeadlinesRaw [[(" ", "", "")]]) := by
  decide

/-- C2 (amended): a candidate is removed by the prefilter exactly when its
story ID is in the 14-day story-ID set or the run's already-selected set,
or its trimmed lowercased headline is nonempty and in the normalised
14-day headline set, or its pivot ID is nonempty and in the 14-day
pivot-ID set; all other candidates are kept, in order. -/
theorem available_candidates_iff (issues : List IssueSlots)
    (selectedToday : List String) (candidates : List CandFields)
    (c : CandFields) :
    c ∈ availableCandidates (recentStoryIds issues ++ selectedToday)
          (recentHeadlineSet (recentHeadlinesRaw issues))
          (recentPivotIds issues) candidates ↔
      c ∈ candidates ∧
      ¬ (c.storyID ∈ recentStoryIds issues ∨ c.storyID ∈ selectedToday ∨
         (pyLowerStrip c.headline ≠ "" ∧
           pyLowerStrip c.headline ∈ recentHeadlineSet (recentHeadlinesRaw issues)) ∨
         (c.pivotId ≠ "" ∧ c.pivotId ∈ recentPivotIds issues)) := by
  have hdup : is_duplicate (recentStoryIds issues ++ selectedToday)
      (recentHeadlineSet (recentHeadlinesRaw issues)) (recentPivotIds issues) c = false ↔
      ¬ (c.storyID ∈ recentStoryIds issues ++ selectedToday ∨
         (pyLowerStrip c.headline ≠ "" ∧
           pyLowerStrip c.headline ∈ recentHeadlineSet (recentHeadlinesRaw issues)) ∨
         (c.pivotId ≠ "" ∧ c.pivotId ∈ recentPivotIds issues)) := by
    unfold is_duplicate
    split_ifs with h1 h2 h3 <;> simp_all
  unfold availableCandidates
  rw [List.mem_filter, Bool.not_eq_true', hdup]
  rw [and_congr_right_iff]
  intro _
  rw [not_congr]
  simp only [List.mem_append, or_assoc]

/-! ## Prefilter: merging fresh and queued stories (C9)

`_merge_stories` (prefilter.py lines 421-444). -/

/-- An input record for `_merge_stories`: the `storyID` of its fields
(`""` for missing) plus an opaque payload distinguishing records. -/
structure Story where
  storyID : String
  body : Nat
deriving DecidableEq, Repr

/-- The shared loop body of `_merge_stories`: walk the list, appending a
story when its `storyID` is truthy and unseen, threading the `seen_ids`
set and the accumulated `merged` list. -/
def mergeLoop (seen : List String) (merged : List Story) :
    List Story → List String × List Story
  | [] => (seen, merged)
  | s :: rest =>
    if s.storyID ≠ "" ∧ s.storyID ∉ seen then
      mergeLoop (s.storyID :: seen) (merged ++ [s]) rest
    else
      mergeLoop seen merged rest

/-- `_merge_stories(fresh, queued)` (prefilter.py lines 421-444): queued
stories are added first (priority), then fresh stories, deduplicating by
`storyID` and dropping records without one. -/
def merge_stories (fresh queued : List Story) : List Story :=
  let step1 := mergeLoop [] [] queued
  (mergeLoop step1.1 step1.2 fresh).2

/-- Invariant lemma for `mergeLoop`: assuming `seen` is exactly the ids of
`merged`, the loop preserves that, keeps the ids nodup and nonempty, only
appends elements of its input, and represents every truthy id of the
input in its output. -/
theorem mergeLoop_spec (rest : List Story) :
    ∀ seen merged,
    (∀ i, i ∈ seen ↔ i ∈ merged.map Story.storyID) →
    (merged.map Story.storyID).Nodup →
    (∀ s ∈ merged, s.storyID ≠ "") →
    (∀ i, i ∈ (mergeLoop seen merged rest).1 ↔
        i ∈ (mergeLoop seen merged rest).2.map Story.storyID) ∧
    ((mergeLoop seen merged rest).2.map Story.storyID).Nodup ∧
    (∀ s ∈ (mergeLoop seen merged rest).2, s.storyID ≠ "") ∧
    ∃ add, (mergeLoop seen merged rest).2 = merged ++ add ∧
      (∀ s ∈ add, s ∈ rest) ∧
      (∀ s ∈ rest, s.storyID ≠ "" →
        ∃ m ∈ (mergeLoop seen merged rest).2, m.storyID = s.storyID) := by
  induction rest with
  | nil =>
    intro seen merged hseen hnd hne
    refine ⟨hseen, hnd, hne, [], by simp [mergeLoop], by simp, by simp⟩
  | cons s rest ih =>
    intro seen merged hseen hnd hne
    by_cases hcond : s.storyID ≠ "" ∧ s.storyID ∉ seen
    · rw [mergeLoop, if_pos hcond]
      have hseen' : ∀ i, i ∈ s.storyID :: seen ↔
          i ∈ (merged ++ [s]).map Story.storyID := by
        intro i
        simp only [List.map_append, List.map_cons, List.map_nil,
          List.mem_append, List.mem_cons, List.not_mem_nil, or_false]
        constructor
        · rintro (h | h)
          · exact Or.inr h
          · exact Or.inl ((hseen i).mp h)
        · rintro (h | h)
          · exact Or.inr ((hseen i).mpr h)
          · exact Or.inl h
      have hnd' : ((merged ++ [s]).map Story.storyID).Nodup := by
        simp only [List.map_append, List.map_cons, List.map_nil]
        refine List.Nodup.append hnd (by simp) ?_
        intro i hi hj
        simp only [List.mem_cons, List.not_mem_nil, or_false] at hj
        subst hj
        exact hcond.2 ((hseen _).mpr hi)
      have hne' : ∀ t ∈ merged ++ [s], t.storyID ≠ "" := by
        intro t ht
        rcases List.mem_append.mp ht with h | h
        · exact hne t h
        · simp only [List.mem_cons, List.not_mem_nil, or_false] at h
          subst h; exact hcond.1
      obtain ⟨hA, hB, hC, add, hadd, haddmem, hrep⟩ :=
        ih (s.storyID :: seen) (merged ++ [s]) hseen' hnd' hne'
      refine ⟨hA, hB, hC, s :: add, ?_, ?_, ?_⟩
      · rw [hadd]; simp
      · intro t ht
        rcases List.mem_cons.mp ht with h | h
        · subst h; exact List.mem_cons_self _ _
        · exact List.mem_cons_of_mem _ (haddmem t h)
      · intro t ht htne
        rcases List.mem_cons.mp ht with h | h
        · subst h
          refine ⟨t, ?_, rfl⟩
          rw [hadd]
          exact List.mem_append.mpr (Or.inl (List.mem_append.mpr (Or.inr (by simp))))
        · exact hrep t h htne
    · rw [mergeLoop, if_neg hcond]
      obtain ⟨hA, hB, hC, add, hadd, haddmem, hrep⟩ := ih seen merged hseen hnd hne
      refine ⟨hA, hB, hC, add, hadd, ?_, ?_⟩
      · intro t ht
        exact List.mem_cons_of_mem _ (haddmem t ht)
      · intro t ht htne
        rcases List.mem_cons.mp ht with h | h
        · subst h
          push_neg at hcond
          have hseenmem := hcond htne
          have hmerged : t.storyID ∈ merged.map Story.storyID := (hseen _).mp hseenmem
          have hres : t.storyID ∈ (mergeLoop seen merged rest).2.map Story.storyID := by
            rw [hadd, List.map_append, List.mem_append]
            exact Or.inl hmerged
          obtain ⟨m, hm1, hm2⟩ := List.mem_map.mp hres
          exact ⟨m, hm1, hm2⟩
        · exact hrep t h htne

/-- C9: `_merge_stories` produces a list whose storyIDs are pairwise
distinct, in which every record has a truthy storyID, which splits as a
block of queued records followed by a block of fresh records (queued
priority), where every queued record with a truthy storyID is represented
by a queued record, and every fresh storyID is represented too. -/
theorem merge_stories_spec (fresh queued : List Story) :
    ((merge_stories fresh queued).map Story.storyID).Nodup ∧
    (∀ s ∈ merge_stories fresh queued, s.storyID ≠ "") ∧
    ∃ mq mf, merge_stories fresh queued = mq ++ mf ∧
      (∀ s ∈ mq, s ∈ queued) ∧ (∀ s ∈ mf, s ∈ fresh) ∧
      (∀ s ∈ queued, s.storyID ≠ "" → ∃ m ∈ mq, m.storyID = s.storyID) ∧
      (∀ s ∈ fresh, s.storyID ≠ "" →
        ∃ m ∈ merge_stories fresh queued, m.storyID = s.storyID) := by
  obtain ⟨hA1, hB1, hC1, add1, hadd1, hmem1, hrep1⟩ :=
    mergeLoop_spec queued [] [] (by simp) (by simp) (by simp)
  obtain ⟨hA2, hB2, hC2, add2, hadd2, hmem2, hrep2⟩ :=
    mergeLoop_spec fresh (mergeLoop [] [] queued).1 (mergeLoop [] [] queued).2
      hA1 hB1 hC1
  have hm : merge_stories fresh queued =
      (mergeLoop (mergeLoop [] [] queued).1 (mergeLoop [] [] queued).2 fresh).2 := rfl
  refine ⟨by rw [hm]; exact hB2, by rw [hm]; exact hC2,
    (mergeLoop [] [] queued).2, add2, ?_, ?_, ?_, ?_, ?_⟩
  · rw [hm, hadd2]
  · intro s hs
    have : s ∈ ([] : List Story) ++ add1 := by rw [← hadd1]; exact hs
    simp only [List.nil_append] at this
    exact hmem1 s this
  · exact hmem2
  · intro s hs hsne
    obtain ⟨m, hm1, hm2⟩ := hrep1 s hs hsne
    exact ⟨m, hm1, hm2⟩
  · intro s hs hsne
    obtain ⟨m, hm1, hm2⟩ := hrep2 s hs hsne
    exact ⟨m, by rw [hm]; exact hm1, hm2⟩

/-! ## Prefilter: per-run uniqueness of written records (C3)

`_write_slot_records` (prefilter.py lines 236-295) builds one record per
match, skipping matches without a `story_id` and matches whose
`(story_id, slot)` pair is already in the run-wide
`written_story_slot_pairs` set.  We model a record by its key
`(storyID, slot)` and a run as a sequence of `(slot, matches)` jobs —
for slot 1 there are two such jobs (the LLM matches and the
company-filter matches). -/

/-- `_write_slot_records(slot_num, matches)` restricted to its pure
record-building part: threads the `written_story_slot_pairs` set and
returns the keys of the records built, in order. -/
def write_slot_records (slot : Nat) :
    List (String × Nat) → List String → List (String × Nat) × List (String × Nat)
  | written, [] => (written, [])
  | written, sid :: rest =>
    if sid = "" then write_slot_records slot written rest
    else if (sid, slot) ∈ written then write_slot_records slot written rest
    else
      let r := write_slot_records slot ((sid, slot) :: written) rest
      (r.1, (sid, slot) :: r.2)

/-- A whole prefilter run: the sequence of `_write_slot_records` calls
(prefilter.py lines 306, 321, 336, 353, 370, 387) sharing one
`written_story_slot_pairs` set. -/
def runPrefilterWrites :
    List (String × Nat) → List (Nat × List String) → List (String × Nat) × List (String × Nat)
  | written, [] => (written, [])
  | written, job :: jobs =>
    let r := write_slot_records job.1 written job.2
    let r2 := runPrefilterWrites r.1 jobs
    (r2.1, r.2 ++ r2.2)

theorem write_slot_records_spec (slot : Nat) (ms : List String) :
    ∀ written,
    ((write_slot_records slot written ms).2).Nodup ∧
    (∀ r ∈ (write_slot_records slot written ms).2,
        r ∉ written ∧ r.2 = slot ∧ r.1 ≠ "") ∧
    (∀ p, p ∈ (write_slot_records slot written ms).1 ↔
        p ∈ written ∨ p ∈ (write_slot_records slot written ms).2) := by
  induction ms with
  | nil => intro written; refine ⟨by simp [write_slot_records], ?_, ?_⟩ <;>
      simp [write_slot_records]
  | cons sid rest ih =>
    intro written
    by_cases h0 : sid = ""
    · rw [write_slot_records, if_pos h0]
      exact ih written
    · by_cases h1 : (sid, slot) ∈ written
      · rw [write_slot_records, if_neg h0, if_pos h1]
        exact ih written
      · rw [write_slot_records, if_neg h0, if_neg h1]
        obtain ⟨hnd, hmem, hiff⟩ := ih ((sid, slot) :: written)
        refine ⟨?_, ?_, ?_⟩
        · simp only [List.nodup_cons]
          refine ⟨?_, hnd⟩
          intro hc
          exact (hmem _ hc).1 (List.mem_cons_self _ _)
        · intro r hr
          rcases List.mem_cons.mp hr with h | h
          · subst h; exact ⟨h1, rfl, h0⟩
          · obtain ⟨hnw, hslot, hne⟩ := hmem r h
            exact ⟨fun hw => hnw (List.mem_cons_of_mem _ hw), hslot, hne⟩
        · intro p
          rw [hiff p]
          simp only [List.mem_cons]
          tauto

theorem runPrefilterWrites_spec (jobs : List (Nat × List String)) :
    ∀ written,
    ((runPrefilterWrites written jobs).2).Nodup ∧
    (∀ r ∈ (runPrefilterWrites written jobs).2, r ∉ written ∧ r.1 ≠ "") ∧
    (∀ p, p ∈ (runPrefilterWrites written jobs).1 ↔
        p ∈ written ∨ p ∈ (runPrefilterWrites written jobs).2) := by
  induction jobs with
  | nil => intro written; refine ⟨by simp [runPrefilterWrites], ?_, ?_⟩ <;>
      simp [runPrefilterWrites]
  | cons job jobs ih =>
    intro written
    obtain ⟨wnd, wmem, wiff⟩ := write_slot_records_spec job.1 job.2 written
    obtain ⟨rnd, rmem, riff⟩ := ih (write_slot_records job.1 written job.2).1
    rw [runPrefilterWrites]
    refine ⟨?_, ?_, ?_⟩
    · refine List.Nodup.append wnd rnd ?_
      intro p hp hq
      have : p ∉ (write_slot_records job.1 written job.2).1 := (rmem p hq).1
      exact this ((wiff p).mpr (Or.inr hp))
    · intro r hr
      rcases List.mem_append.mp hr with h | h
      · exact ⟨(wmem r h).1, (wmem r h).2.2⟩
      · refine ⟨?_, (rmem r h).2⟩
        intro hw
        exact (rmem r h).1 ((wiff r).mpr (Or.inl hw))
    · intro p
      rw [riff p, wiff p]
      simp only [List.mem_append]
      tauto

/-- C3: within one prefilter run — any sequence of `_write_slot_records`
calls sharing the run's `written_story_slot_pairs` set, including the two
slot-1 calls — the list of written records contains no duplicate
`(story_id, slot)` pair, and every written record has a truthy
`story_id`. -/
theorem prefilter_run_writes_unique (jobs : List (Nat × List String)) :
    ((runPrefilterWrites [] jobs).2).Nodup ∧
    (∀ r ∈ (runPrefilterWrites [] jobs).2, r.1 ≠ "") := by
  obtain ⟨hnd, hmem, -⟩ := runPrefilterWrites_spec jobs []
  exact ⟨hnd, fun r hr => (hmem r hr).2⟩

/-! ## Chunked LLM classifier calls (C5)

`ClaudePrefilterClient._run_slot_prefilter` (claude_prefilter.py lines
180-246) chunks its article list with `_chunk_articles` (line 324-326,
`chunk_size = 100`), processes the chunks sequentially, and extends one
accumulator with each chunk's matches.  `_execute_claude_prefilter`
(lines 248-322) catches every exception internally: after the retries it
either returns the parsed (or regex-recovered) matches or returns `[]` —
it never raises.  We model one chunk's final outcome by
`oracle i chunk : Option (List β)`: `some ms` when a call or the
recovery parser produced matches, `none` when all attempts failed. -/

/-- Fuel-indexed helper for `_chunk_articles`; the fuel bounds the number
of chunks and is instantiated with the list length, which always
suffices. -/
def chunk100Fuel : Nat → List α → List (List α)
  | _, [] => []
  | 0, _ :: _ => []
  | fuel + 1, a :: rest =>
    ((a :: rest).take 100) :: chunk100Fuel fuel ((a :: rest).drop 100)

/-- `_chunk_articles(articles, 100)`:
`[articles[i:i+100] for i in range(0, len(articles), 100)]`. -/
def chunk100 (l : List α) : List (List α) := chunk100Fuel l.length l

/-- `_run_slot_prefilter`, given the per-chunk outcomes: returns `[]` for
an empty article list, otherwise concatenates each chunk's matches in
chunk order, with `[]` for a failed chunk.  The codomain is `Except` to
make "the operation fails" expressible: no code path produces an error. -/
def run_slot_prefilter (oracle : Nat → List α → Option (List β))
    (articles : List α) : Except String (List β) :=
  if articles.isEmpty then Except.ok []
  else Except.ok (((chunk100 articles).enum).flatMap fun p => (oracle p.1 p.2).getD [])

/-- Whether an `Except` result is an error. -/
def isError : Except ε α → Bool
  | Except.error _ => true
  | Except.ok _ => false

theorem chunk100Fuel_flatten : ∀ (fuel : Nat) (l : List α), l.length ≤ fuel →
    (chunk100Fuel fuel l).flatten = l := by
  intro fuel
  induction fuel with
  | zero =>
    intro l h
    cases l with
    | nil => simp [chunk100Fuel]
    | cons a rest => simp at h
  | succ n ih =>
    intro l h
    cases l with
    | nil => simp [chunk100Fuel]
    | cons a rest =>
      have h' : rest.length + 1 ≤ n + 1 := by simpa using h
      rw [chunk100Fuel, List.flatten_cons,
        ih ((a :: rest).drop 100) (by simp; omega)]
      exact List.take_append_drop 100 (a :: rest)

theorem chunk100_flatten (l : List α) : (chunk100 l).flatten = l :=
  chunk100Fuel_flatten l.length l (le_refl _)

theorem chunk100Fuel_mem : ∀ (fuel : Nat) (l : List α), l.length ≤ fuel →
    ∀ c ∈ chunk100Fuel fuel l, c.length ≤ 100 ∧ c ≠ [] := by
  intro fuel
  induction fuel with
  | zero =>
    intro l h c hc
    cases l with
    | nil => simp [chunk100Fuel] at hc
    | cons a rest => simp at h
  | succ n ih =>
    intro l h c hc
    cases l with
    | nil => simp [chunk100Fuel] at hc
    | cons a rest =>
      have h' : rest.length + 1 ≤ n + 1 := by simpa using h
      rw [chunk100Fuel] at hc
      rcases List.mem_cons.mp hc with h1 | h1
      · subst h1
        constructor
        · rw [List.length_take]; omega
        · intro hemp
          have hlen := congrArg List.length hemp
          simp [List.length_take] at hlen
      · exact ih ((a :: rest).drop 100) (by simp; omega) c h1

set_option maxRecDepth 8000 in
/-- C5 counterexample: with 150 articles split into two chunks and every
chunk failing, `_run_slot_prefilter` does NOT fail: it returns a
successful empty match list — refuting "the operation fails when all
chunks fail". -/
theorem run_slot_prefilter_all_fail_counterexample :
    (chunk100 (List.replicate 150 (0 : Nat))).length = 2 ∧
    run_slot_prefilter (fun _ _ => (none : Option (List Nat)))
        (List.replicate 150 (0 : Nat)) = Except.ok [] ∧
    isError (run_slot_prefilter (fun _ _ => (none : Option (List Nat)))
        (List.replicate 150 (0 : Nat))) = false := by
  refine ⟨by decide, by rfl, by rfl⟩

/-- C5 (amended): the classifier call splits its input into consecutive
chunks of at most 100 items whose concatenation is the input, processes
them in order, and returns a successful result that concatenates each
chunk's matches (`[]` for a failed chunk); a chunk's failure never fails
the operation — even when every chunk fails, the result is a successful
empty list, not an error. -/
theorem run_slot_prefilter_spec (oracle : Nat → List α → Option (List β))
    (articles : List α) :
    (∀ c ∈ chunk100 articles, c.length ≤ 100 ∧ c ≠ []) ∧
    (chunk100 articles).flatten = articles ∧
    run_slot_prefilter oracle articles =
      Except.ok (((chunk100 articles).enum).flatMap fun p => (oracle p.1 p.2).getD []) ∧
    isError (run_slot_prefilter oracle articles) = false := by
  refine ⟨chunk100Fuel_mem articles.length articles (le_refl _),
          chunk100_flatten articles, ?_, ?_⟩
  · unfold run_slot_prefilter
    split_ifs with h
    · rw [List.isEmpty_iff] at h
      subst h
      simp [chunk100, chunk100Fuel]
    · rfl
  · unfold run_slot_prefilter isError
    split_ifs <;> rfl

/-! ## Image generation fan-out (C6)

`ImageClient.generate_image` (images.py lines 36-65).  The two generator
calls are modelled by their outcome: either they return a value
(`Optional[bytes]`, where `None` and `b''` are falsy) or they raise an
exception, whose auth-or-not nature we record to state the claim. -/

/-- Outcome of one generator call: a returned `Optional[bytes]` value, or
a raised exception (with whether it is an auth error). -/
inductive ImgOutcome where
  | ret (b : Option (List Nat))
  | exc (isAuth : Bool)
deriving DecidableEq, Repr

/-- The truthy bytes produced by a generator attempt inside its
`try`/`except`: `some b` exactly when the call returned nonempty bytes
(then `generate_image` returns them); `none` when it returned a falsy
value or raised. -/
def outcomeBytes : ImgOutcome → Option (List Nat)
  | ImgOutcome.ret (some b) => if b = [] then none else some b
  | ImgOutcome.ret none => none
  | ImgOutcome.exc _ => none

/-- `ImageClient.generate_image(prompt)` given the configured keys and the
two call outcomes: primary (Gemini) first, fallback (GPT) second, else
`(None, 'none')`. -/
def generate_image (geminiKey openaiKey : Bool) (gem gpt : ImgOutcome) :
    Option (List Nat) × String :=
  match (if geminiKey then outcomeBytes gem else none) with
  | some b => (some b, "gemini")
  | none =>
    match (if openaiKey then outcomeBytes gpt else none) with
    | some b => (some b, "gpt")
    | none => (none, "none")

/-- Whether control reaches the fallback (GPT) call: the fallback block
runs exactly when its key is configured and the primary attempt did not
return truthy bytes (images.py lines 48-63). -/
def fallback_attempted (geminiKey openaiKey : Bool) (gem : ImgOutcome) : Bool :=
  openaiKey && (if geminiKey then (outcomeBytes gem).isNone else true)

/-- C6 counterexample: when the primary raises an AUTH error, the fallback
IS attempted (the `except Exception` at line 53 catches auth errors too),
and its bytes are returned with source `'gpt'` — refuting "on an auth
failure of the primary the fallback is not attempted". -/
theorem generate_image_auth_counterexample :
    fallback_attempted true true (ImgOutcome.exc true) = true ∧
    generate_image true true (ImgOutcome.exc true) (ImgOutcome.ret (some [1])) =
      (some [1], "gpt") := by
  refine ⟨by decide, by decide⟩

/-- C6 (amended): the adapter attempts the primary generator exactly when
its key is configured, attempts the fallback exactly when the fallback
key is configured and the primary attempt produced no nonempty bytes
(unconfigured, raised any exception — auth included — or returned a falsy
value), and returns no bytes with source `'none'` exactly when neither
attempt produced nonempty bytes. -/
theorem generate_image_spec (gk ok : Bool) (gem gpt : ImgOutcome) :
    (fallback_attempted gk ok gem = true ↔
      ok = true ∧ (gk = true → outcomeBytes gem = none)) ∧
    (generate_image gk ok gem gpt = (none, "none") ↔
      (gk = true → outcomeBytes gem = none) ∧ (ok = true → outcomeBytes gpt = none)) ∧
    (∀ b, gk = true → outcomeBytes gem = some b →
      generate_image gk ok gem gpt = (some b, "gemini")) ∧
    (∀ b, fallback_attempted gk ok gem = true → outcomeBytes gpt = some b →
      generate_image gk ok gem gpt = (some b, "gpt")) := by
  cases gk <;> cases ok <;>
    rcases hgem : outcomeBytes gem with _ | b1 <;>
    rcases hgpt : outcomeBytes gpt with _ | b2 <;>
    simp [generate_image, fallback_attempted, hgem, hgpt]

/-! ## Ingest idempotence (C7)

`workers/backfill_72h.py`, `main()` steps 3-8 (lines 352-425) plus
`fetch_existing_pivot_ids` (lines 237-274).  The pre-dedup filters
(blocked domains, publish-date cutoff) are abstracted into a single
deterministic predicate `keep`; Google-News URL resolution (step 2) is
abstracted into a deterministic `resolve` function, so `resolve it.url`
is the item's resolved URL. -/

/-- A feed item after fetching: its URL and an opaque payload. -/
structure FeedItem where
  url : String
  body : Nat
deriving DecidableEq, Repr

/-- Modelled from the spec: `generate_pivot_id` lives in
`workers/utils/pivot_id.py`, which is not under `src/`.  Spec §4.1:
`fingerprint(url)` is "a pure hash of `canonicalize(url)`" where
`canonicalize` lowercases the host and strips tracking noise, and
ingest drops items whose fingerprint is empty (normalization failure,
modelled by an empty URL).  Only purity (same URL, same fingerprint)
matters for the idempotence claim, so the hash is modelled as a tagged
copy of the lowercased URL. -/
def generate_pivot_id (url : String) : String :=
  if url = "" then "" else "pid_" ++ String.mk (url.toList.map Char.toLower)

/-- One ingest run (`main()` steps 3-8): filter, attach fingerprints,
drop items without one, drop fingerprints already in the store, append
the rest.  Returns the new store contents and the number of new Article
rows created. -/
def ingest_run (keep : FeedItem → Bool) (resolve : String → String)
    (store : List String) (items : List FeedItem) : List String × Nat :=
  let withId := ((items.filter keep).map
      fun it => (it, generate_pivot_id (resolve it.url))).filter
      fun p => p.2 ≠ ""
  let newArts := withId.filter fun p => p.2 ∉ store
  (store ++ newArts.map Prod.snd, newArts.length)

theorem filter_not_mem_append_nil {γ : Type} (L : List (γ × String))
    (store : List String) :
    L.filter (fun p =>
        p.2 ∉ store ++ (L.filter fun p => p.2 ∉ store).map Prod.snd) = [] := by
  rw [List.filter_eq_nil_iff]
  intro p hp
  simp only [decide_eq_true_eq, not_not]
  by_cases h : p.2 ∈ store
  · exact List.mem_append.mpr (Or.inl h)
  · have h1 : p ∈ L.filter (fun p => p.2 ∉ store) :=
      List.mem_filter.mpr ⟨hp, by simp [h]⟩
    have h2 : p.2 ∈ (L.filter fun p => p.2 ∉ store).map Prod.snd :=
      List.mem_map.mpr ⟨p, h1, rfl⟩
    exact List.mem_append.mpr (Or.inr h2)

/-- C7: ingest is idempotent — a second run over the same feed items,
with the same (deterministic) resolution and filtering, creates zero new
Article rows and leaves the store unchanged, because every fingerprint is
checked against the full stored set before any append. -/
theorem ingest_idempotent (keep : FeedItem → Bool) (resolve : String → String)
    (store : List String) (items : List FeedItem) :
    (ingest_run keep resolve (ingest_run keep resolve store items).1 items).2 = 0 ∧
    (ingest_run keep resolve (ingest_run keep resolve store items).1 items).1 =
      (ingest_run keep resolve store items).1 := by
  unfold ingest_run
  have key := filter_not_mem_append_nil
    (((items.filter keep).map
        fun it => (it, generate_pivot_id (resolve it.url))).filter
        fun p => p.2 ≠ "")
    store
  constructor
  · simp only [key, List.length_nil]
  · simp only [key, List.map_nil, List.append_nil]

/-! ## Slot selection: unmatched model output (C8)

`select_slots` (slot_selection.py lines 254-309): after the model call,
the code looks the returned story up among the available candidates,
first by exact `storyID`, then — when the returned headline is truthy —
by trimmed lowercased headline; on a headline match the storyID is
corrected to the candidate's.  With no match at all the slot is still
written with the model-returned values and an empty pivotId. -/

/-- Lines 257-288: candidate lookup.  Returns the (possibly corrected)
storyID, the pivotId (`""` when unmatched) and the matched candidate. -/
def lookup_selected (available : List CandFields) (sid headline : String) :
    String × String × Option CandFields :=
  match available.find? (fun c => c.storyID = sid) with
  | some c => (sid, c.pivotId, some c)
  | none =>
    if headline ≠ "" then
      match available.find? (fun c => pyLowerStrip c.headline = pyLowerStrip headline) with
      | some c => (c.storyID, c.pivotId, some c)
      | none => (sid, "", none)
    else (sid, "", none)

/-- Lines 290-305: the slot's contribution to the issue record —
`(slot_headline, slot_storyId, slot_pivotId)` — and the updated
cumulative `selectedToday` list (line 293-294: the storyID is appended
only when truthy). -/
def slot_outcome (available : List CandFields) (sid headline : String)
    (selectedToday : List String) : (String × String × String) × List String :=
  let r := lookup_selected available sid headline
  ((headline, r.1, r.2.1),
   if r.1 ≠ "" then selectedToday ++ [r.1] else selectedToday)

/-- C8 counterexample: when the model returns an EMPTY storyID (and an
unmatched headline), the slot is still written, but the empty ID is NOT
appended to the cumulative already-selected set (line 293 `if
selected_story_id:`) — refuting the unconditional "appends the unmatched
ID". -/
theorem select_slots_unmatched_counterexample :
    slot_outcome [⟨"a", "H", "p"⟩] "" "Z" [] = (("Z", "", ""), []) ∧
    ([] : List String) ≠ [""] := by
  refine ⟨by decide, by decide⟩

/-- C8 (amended): when the model-returned story matches no available
candidate by exact storyID nor (case-insensitively, after trimming) by
headline, the slot is not dropped: the returned headline and storyID are
written into the slot's issue fields with an empty pivotId, and the
returned ID is appended to the cumulative already-selected set exactly
when it is nonempty. -/
theorem select_slots_unmatched_spec (available : List CandFields)
    (sid headline : String) (sel : List String)
    (hid : ∀ c ∈ available, c.storyID ≠ sid)
    (hhl : ∀ c ∈ available, pyLowerStrip c.headline ≠ pyLowerStrip headline) :
    slot_outcome available sid headline sel =
      ((headline, sid, ""), if sid ≠ "" then sel ++ [sid] else sel) := by
  have h1 : available.find? (fun c => c.storyID = sid) = none := by
    rw [List.find?_eq_none]
    intro c hc
    simpa using hid c hc
  have h2 : available.find? (fun c => pyLowerStrip c.headline = pyLowerStrip headline) = none := by
    rw [List.find?_eq_none]
    intro c hc
    simpa using hhl c hc
  have hlook : lookup_selected available sid headline = (sid, "", none) := by
    unfold lookup_selected
    rw [h1, h2]
    split_ifs <;> rfl
  unfold slot_outcome
  rw [hlook]

/-- Witness for C8: a concrete unmatched selection with a nonempty ID is
written and appended. -/
theorem select_slots_unmatched_spec_witness :
    slot_outcome [⟨"a", "H", "p"⟩] "zz" "Z" [] = (("Z", "zz", ""), ["zz"]) := by
  have h := select_slots_unmatched_spec [⟨"a", "H", "p"⟩] "zz" "Z" []
    (by decide) (by decide)
  have h2 : (if ("zz" : String) ≠ "" then ([] : List String) ++ ["zz"] else []) = ["zz"] := by
    decide
  rw [h, h2]

/-! ## HTML escaping (C10)

`_escape_html` (html_stripper.py lines 117-151) protects literal `<b>`
and `</b>` by rewriting them to placeholder tokens, escapes the five
HTML-special characters by chained `str.replace` calls, and rewrites the
placeholders back.  We model Python's `str.replace` (left-to-right,
non-overlapping, all occurrences) on `List Char`. -/

/-- Fuel-indexed core of Python `str.replace`; fuel bounds the scan
length and is instantiated with the string length, which always
suffices. -/
def pyReplaceFuel (pat rep : List Char) : Nat → List Char → List Char
  | _, [] => []
  | 0, l => l
  | fuel + 1, c :: cs =>
    if pat ≠ [] ∧ (c :: cs).take pat.length = pat then
      rep ++ pyReplaceFuel pat rep fuel ((c :: cs).drop pat.length)
    else c :: pyReplaceFuel pat rep fuel cs

/-- Python `s.replace(pat, rep)`: scan left to right; at each position,
if `pat` starts here, emit `rep` and resume after it, else keep the
character. -/
def pyReplace (pat rep s : List Char) : List Char :=
  pyReplaceFuel pat rep s.length s

theorem pyReplaceFuel_irrel (pat rep : List Char) :
    ∀ (f g : Nat) (l : List Char), l.length ≤ f → l.length ≤ g →
      pyReplaceFuel pat rep f l = pyReplaceFuel pat rep g l := by
  intro f
  induction f with
  | zero =>
    intro g l hf hg
    cases l with
    | nil => cases g <;> rfl
    | cons c cs => simp at hf
  | succ f ih =>
    intro g l hf hg
    cases l with
    | nil => cases g <;> rfl
    | cons c cs =>
      cases g with
      | zero => simp at hg
      | succ g =>
        rw [pyReplaceFuel, pyReplaceFuel]
        by_cases h : pat ≠ [] ∧ (c :: cs).take pat.length = pat
        · rw [if_pos h, if_pos h]
          have hplen : 1 ≤ pat.length := by
            cases pat with
            | nil => exact absurd rfl h.1
            | cons p ps => simp
          have hlen : ((c :: cs).drop pat.length).length ≤ f := by
            simp only [List.length_drop, List.length_cons]
            simp only [List.length_cons] at hf
            omega
          have hlen' : ((c :: cs).drop pat.length).length ≤ g := by
            simp only [List.length_drop, List.length_cons]
            simp only [List.length_cons] at hg
            omega
          rw [ih g _ hlen hlen']
        · rw [if_neg h, if_neg h]
          have hlen : cs.length ≤ f := by
            simp only [List.length_cons] at hf; omega
          have hlen' : cs.length ≤ g := by
            simp only [List.length_cons] at hg; omega
          rw [ih g cs hlen hlen']

theorem pyReplace_nil (pat rep : List Char) : pyReplace pat rep [] = [] := rfl

theorem pyReplace_cons (pat rep : List Char) (c : Char) (cs : List Char) :
    pyReplace pat rep (c :: cs) =
      if pat ≠ [] ∧ (c :: cs).take pat.length = pat then
        rep ++ pyReplace pat rep ((c :: cs).drop pat.length)
      else c :: pyReplace pat rep cs := by
  show pyReplaceFuel pat rep (cs.length + 1) (c :: cs) = _
  rw [pyReplaceFuel]
  by_cases h : pat ≠ [] ∧ (c :: cs).take pat.length = pat
  · rw [if_pos h, if_pos h]
    have hplen : 1 ≤ pat.length := by
      cases pat with
      | nil => exact absurd rfl h.1
      | cons p ps => simp
    rw [pyReplaceFuel_irrel pat rep cs.length ((c :: cs).drop pat.length).length
        ((c :: cs).drop pat.length) (by simp; omega) (le_refl _)]
    rfl
  · rw [if_neg h, if_neg h]
    rfl

/-- Matching step: when the string starts with the (nonempty) pattern,
`replace` emits the replacement and resumes after the pattern. -/
theorem pyReplace_match (pat rep t : List Char) (h : pat ≠ []) :
    pyReplace pat rep (pat ++ t) = rep ++ pyReplace pat rep t := by
  cases pat with
  | nil => exact absurd rfl h
  | cons p ps =>
    rw [List.cons_append, pyReplace_cons]
    have htake : (p :: (ps ++ t)).take (p :: ps).length = p :: ps := by
      have := List.take_left (p :: ps) t
      simpa using this
    have hdrop : (p :: (ps ++ t)).drop (p :: ps).length = t := by
      have := List.drop_left (p :: ps) t
      simpa using this
    rw [if_pos ⟨h, htake⟩, hdrop]

/-- Skipping step: at a position where the pattern does not start,
`replace` keeps the character. -/
theorem pyReplace_skip (pat rep : List Char) (c : Char) (cs : List Char)
    (h : ¬ (pat ≠ [] ∧ (c :: cs).take pat.length = pat)) :
    pyReplace pat rep (c :: cs) = c :: pyReplace pat rep cs := by
  rw [pyReplace_cons, if_neg h]

/-- Block-skipping: `replace` passes over a block `pre` unchanged when no
match of the pattern can start at any position inside `pre`. -/
theorem pyReplace_skip_block (pat rep : List Char) (hpat : pat ≠ []) :
    ∀ (pre u : List Char),
      (∀ j, j < pre.length → ¬ ((pre.drop j ++ u).take pat.length = pat)) →
      pyReplace pat rep (pre ++ u) = pre ++ pyReplace pat rep u := by
  intro pre
  induction pre with
  | nil => intro u _; rfl
  | cons c pre' ih =>
    intro u H
    have hne : ¬ (pat ≠ [] ∧ (c :: (pre' ++ u)).take pat.length = pat) := by
      intro hcon
      exact H 0 (by simp) (by simpa using hcon.2)
    rw [List.cons_append, pyReplace_skip pat rep c (pre' ++ u) hne,
      ih u (by
        intro j hj
        have := H (j + 1) (by simp; omega)
        simpa using this)]
    rfl

/-- Head-mismatch skipping: `replace` passes over a block none of whose
characters equals the pattern's first character. -/
theorem pyReplace_skip_nohead (p : Char) (ps rep : List Char) :
    ∀ (pre u : List Char), (∀ c ∈ pre, c ≠ p) →
      pyReplace (p :: ps) rep (pre ++ u) = pre ++ pyReplace (p :: ps) rep u := by
  intro pre
  induction pre with
  | nil => intro u _; rfl
  | cons c pre' ih =>
    intro u H
    have hne : ¬ ((p :: ps) ≠ [] ∧
        (c :: (pre' ++ u)).take (p :: ps).length = p :: ps) := by
      intro hcon
      have htake := hcon.2
      rw [List.length_cons, List.take_succ_cons] at htake
      injection htake with h1 h2
      exact H c (List.mem_cons_self _ _) h1
    rw [List.cons_append, pyReplace_skip _ _ _ _ hne,
      ih u (fun d hd => H d (List.mem_cons_of_mem _ hd))]
    rfl

/-- The literal `<b>` tag. -/
def bOpenTag : List Char := ['<', 'b', '>']

/-- The literal `</b>` tag. -/
def bCloseTag : List Char := ['<', '/', 'b', '>']

/-- The placeholder `___BOLD_OPEN___` (html_stripper.py line 133). -/
def bOpenPh : List Char :=
  ['_', '_', '_', 'B', 'O', 'L', 'D', '_', 'O', 'P', 'E', 'N', '_', '_', '_']

/-- The placeholder `___BOLD_CLOSE___` (html_stripper.py line 134). -/
def bClosePh : List Char :=
  ['_', '_', '_', 'B', 'O', 'L', 'D', '_', 'C', 'L', 'O', 'S', 'E', '_', '_', '_']

/-- Lines 137-144: the five chained `str.replace` escapes, in source
order (`&`, `<`, `>`, `"`, `'`). -/
def escapeSpecials (t : List Char) : List Char :=
  pyReplace ['\''] "&#39;".toList
    (pyReplace ['"'] "&quot;".toList
      (pyReplace ['>'] "&gt;".toList
        (pyReplace ['<'] "&lt;".toList
          (pyReplace ['&'] "&amp;".toList t))))

/-- `_escape_html(text, preserve_bold)` (html_stripper.py lines 117-151). -/
def escape_html (text : List Char) (preserveBold : Bool) : List Char :=
  if text = [] then []
  else
    let t1 := if preserveBold then
        pyReplace bCloseTag bClosePh (pyReplace bOpenTag bOpenPh text)
      else text
    let t2 := escapeSpecials t1
    if preserveBold then
      pyReplace bClosePh bCloseTag (pyReplace bOpenPh bOpenTag t2)
    else t2

/-- The HTML entity for one character, as the claim describes the five
replacements. -/
def escCharSpec (c : Char) : List Char :=
  if c = '&' then "&amp;".toList
  else if c = '<' then "&lt;".toList
  else if c = '>' then "&gt;".toList
  else if c = '"' then "&quot;".toList
  else if c = '\'' then "&#39;".toList
  else [c]

/-- Fuel-indexed scanner that walks a string left to right, emitting
`fo` for a literal `<b>`, `fc` for a literal `</b>`, and `fch c` for any
other character; fuel is instantiated with the string length, which
always suffices. -/
def stageFuel (fo fc : List Char) (fch : Char → List Char) :
    Nat → List Char → List Char
  | _, [] => []
  | 0, l => l
  | fuel + 1, c :: cs =>
    if (c :: cs).take 3 = bOpenTag then
      fo ++ stageFuel fo fc fch fuel ((c :: cs).drop 3)
    else if (c :: cs).take 4 = bCloseTag then
      fc ++ stageFuel fo fc fch fuel ((c :: cs).drop 4)
    else fch c ++ stageFuel fo fc fch fuel cs

/-- Left-to-right tag-preserving scan. -/
def stageRun (fo fc : List Char) (fch : Char → List Char) (s : List Char) :
    List Char :=
  stageFuel fo fc fch s.length s

/-- The claim's specification of `_escape_html` with `preserve_bold`:
every occurrence of the five special characters replaced by its entity,
except that literal `<b>` and `</b>` substrings are preserved
unchanged. -/
def specEscapeBold (s : List Char) : List Char :=
  stageRun bOpenTag bCloseTag escCharSpec s

/-- Whether `pat` occurs as a contiguous substring. -/
def containsTag (pat : List Char) : List Char → Bool
  | [] => pat.isEmpty
  | c :: cs => decide ((c :: cs).take pat.length = pat) || containsTag pat cs

/-- Every `<` in the string starts a literal `<b>` or `</b>` (no other
HTML tag can occur). -/
def onlyBoldTags : List Char → Bool
  | [] => true
  | c :: cs =>
    (if c = '<' then
        decide (cs.take 2 = ['b', '>']) || decide (cs.take 3 = ['/', 'b', '>'])
      else true)
    && onlyBoldTags cs

/-- C10 counterexample: the input `</b>BOLD_OPEN<b>x` contains neither
placeholder token, yet `_escape_html` mangles it: after the tag-to-
placeholder pass the string is `___BOLD_CLOSE___BOLD_OPEN___BOLD_OPEN___x`,
and the restore pass matches `___BOLD_OPEN___` at offset 13 — spanning
the close placeholder's tail and the literal text — producing
`___BOLD_CLOSE<b>BOLD_OPEN___x` instead of the claimed
`</b>BOLD_OPEN<b>x`. -/
theorem escape_html_claim_counterexample :
    containsTag bOpenPh ("</b>BOLD_OPEN<b>x".toList) = false ∧
    containsTag bClosePh ("</b>BOLD_OPEN<b>x".toList) = false ∧
    escape_html ("</b>BOLD_OPEN<b>x".toList) true =
      "___BOLD_CLOSE<b>BOLD_OPEN___x".toList ∧
    specEscapeBold ("</b>BOLD_OPEN<b>x".toList) = "</b>BOLD_OPEN<b>x".toList ∧
    escape_html ("</b>BOLD_OPEN<b>x".toList) true ≠
      specEscapeBold ("</b>BOLD_OPEN<b>x".toList) := by
  refine ⟨by decide, by decide, by decide, by decide, by decide⟩

theorem stageFuel_cons (fo fc : List Char) (fch : Char → List Char)
    (f : Nat) (c : Char) (cs : List Char) :
    stageFuel fo fc fch (f + 1) (c :: cs) =
      if (c :: cs).take 3 = bOpenTag then
        fo ++ stageFuel fo fc fch f ((c :: cs).drop 3)
      else if (c :: cs).take 4 = bCloseTag then
        fc ++ stageFuel fo fc fch f ((c :: cs).drop 4)
      else fch c ++ stageFuel fo fc fch f cs := rfl

theorem stageFuel_irrel (fo fc : List Char) (fch : Char → List Char) :
    ∀ (f g : Nat) (l : List Char), l.length ≤ f → l.length ≤ g →
      stageFuel fo fc fch f l = stageFuel fo fc fch g l := by
  intro f
  induction f with
  | zero =>
    intro g l hf hg
    cases l with
    | nil => cases g <;> rfl
    | cons c cs => simp at hf
  | succ f ih =>
    intro g l hf hg
    cases l with
    | nil => cases g <;> rfl
    | cons c cs =>
      cases g with
      | zero => simp at hg
      | succ g =>
        rw [stageFuel_cons, stageFuel_cons]
        simp only [List.length_cons] at hf hg
        by_cases h3 : (c :: cs).take 3 = bOpenTag
        · rw [if_pos h3, if_pos h3,
            ih g ((c :: cs).drop 3) (by simp; omega) (by simp; omega)]
        · rw [if_neg h3, if_neg h3]
          by_cases h4 : (c :: cs).take 4 = bCloseTag
          · rw [if_pos h4, if_pos h4,
              ih g ((c :: cs).drop 4) (by simp; omega) (by simp; omega)]
          · rw [if_neg h4, if_neg h4, ih g cs (by omega) (by omega)]

theorem stageRun_nil (fo fc : List Char) (fch : Char → List Char) :
    stageRun fo fc fch [] = [] := rfl

theorem stageRun_op (fo fc : List Char) (fch : Char → List Char) (r : List Char) :
    stageRun fo fc fch ('<' :: 'b' :: '>' :: r) = fo ++ stageRun fo fc fch r := by
  show stageFuel fo fc fch (r.length + 1 + 1 + 1) ('<' :: 'b' :: '>' :: r) = _
  rw [stageFuel_cons, if_pos (show ('<' :: 'b' :: '>' :: r).take 3 = bOpenTag from rfl)]
  rw [stageFuel_irrel fo fc fch (r.length + 1 + 1) r.length
    (('<' :: 'b' :: '>' :: r).drop 3) (by simp; omega) (by simp)]
  rfl

theorem stageRun_cl (fo fc : List Char) (fch : Char → List Char) (r : List Char) :
    stageRun fo fc fch ('<' :: '/' :: 'b' :: '>' :: r) = fc ++ stageRun fo fc fch r := by
  show stageFuel fo fc fch (r.length + 1 + 1 + 1 + 1) ('<' :: '/' :: 'b' :: '>' :: r) = _
  rw [stageFuel_cons,
    if_neg (show ¬ ('<' :: '/' :: 'b' :: '>' :: r).take 3 = bOpenTag from
      fun h => absurd (show (['<', '/', 'b'] : List Char) = bOpenTag from h) (by decide)),
    if_pos (show ('<' :: '/' :: 'b' :: '>' :: r).take 4 = bCloseTag from rfl)]
  rw [stageFuel_irrel fo fc fch (r.length + 1 + 1 + 1) r.length
    (('<' :: '/' :: 'b' :: '>' :: r).drop 4) (by simp; omega) (by simp)]
  rfl

theorem stageRun_chr (fo fc : List Char) (fch : Char → List Char) (c : Char)
    (r : List Char) (h3 : ¬ (c :: r).take 3 = bOpenTag)
    (h4 : ¬ (c :: r).take 4 = bCloseTag) :
    stageRun fo fc fch (c :: r) = fch c ++ stageRun fo fc fch r := by
  show stageFuel fo fc fch (r.length + 1) (c :: r) = _
  rw [stageFuel_cons, if_neg h3, if_neg h4]
  rfl

/-- Custom induction principle matching the left-to-right tag scan: a
string is empty, starts with `<b>`, starts with `</b>`, or starts with a
character heading neither tag. -/
theorem escRec {motive : List Char → Prop}
    (h0 : motive [])
    (hop : ∀ r, motive r → motive ('<' :: 'b' :: '>' :: r))
    (hcl : ∀ r, motive r → motive ('<' :: '/' :: 'b' :: '>' :: r))
    (hch : ∀ c r, motive r → ¬ ((c :: r).take 3 = bOpenTag) →
      ¬ ((c :: r).take 4 = bCloseTag) → motive (c :: r)) :
    ∀ s, motive s := by
  have H : ∀ (n : Nat) (s : List Char), s.length ≤ n → motive s := by
    intro n
    induction n with
    | zero =>
      intro s hs
      cases s with
      | nil => exact h0
      | cons c cs => simp at hs
    | succ n ih =>
      intro s hs
      cases s with
      | nil => exact h0
      | cons c cs =>
        simp only [List.length_cons] at hs
        by_cases hOT : (c :: cs).take 3 = bOpenTag
        · obtain ⟨r, hr⟩ : ∃ r, c :: cs = '<' :: 'b' :: '>' :: r := by
            cases cs with
            | nil =>
              have h' : [c] = bOpenTag := hOT
              simp [bOpenTag] at h'
            | cons c2 cs2 =>
              cases cs2 with
              | nil =>
                have h' : [c, c2] = bOpenTag := hOT
                simp [bOpenTag] at h'
              | cons c3 cs3 =>
                have h' : [c, c2, c3] = bOpenTag := hOT
                simp only [bOpenTag, List.cons.injEq, and_true] at h'
                exact ⟨cs3, by rw [h'.1, h'.2.1, h'.2.2]⟩
          rw [hr]
          have hlen : r.length ≤ n := by
            have := congrArg List.length hr
            simp at this
            omega
          exact hop r (ih r hlen)
        · by_cases hCT : (c :: cs).take 4 = bCloseTag
          · obtain ⟨r, hr⟩ : ∃ r, c :: cs = '<' :: '/' :: 'b' :: '>' :: r := by
              cases cs with
              | nil =>
                have h' : [c] = bCloseTag := hCT
                simp [bCloseTag] at h'
              | cons c2 cs2 =>
                cases cs2 with
                | nil =>
                  have h' : [c, c2] = bCloseTag := hCT
                  simp [bCloseTag] at h'
                | cons c3 cs3 =>
                  cases cs3 with
                  | nil =>
                    have h' : [c, c2, c3] = bCloseTag := hCT
                    simp [bCloseTag] at h'
                  | cons c4 cs4 =>
                    have h' : [c, c2, c3, c4] = bCloseTag := hCT
                    simp only [bCloseTag, List.cons.injEq, and_true] at h'
                    exact ⟨cs4, by rw [h'.1, h'.2.1, h'.2.2.1, h'.2.2.2]⟩
            rw [hr]
            have hlen : r.length ≤ n := by
              have := congrArg List.length hr
              simp at this
              omega
            exact hcl r (ih r hlen)
          · exact hch c cs (ih cs (by omega)) hOT hCT
  exact fun s => H s.length s (le_refl _)

/-- A single-character `replace` maps each character independently. -/
theorem pyReplace_single (a : Char) (rep : List Char) :
    ∀ s, pyReplace [a] rep s = s.flatMap fun c => if c = a then rep else [c] := by
  intro s
  induction s with
  | nil => rfl
  | cons c cs ih =>
    rw [pyReplace_cons]
    by_cases h : c = a
    · subst h
      rw [if_pos ⟨by simp, show (c :: cs).take 1 = [c] from rfl⟩]
      show rep ++ pyReplace [c] rep cs = _
      rw [ih]
      simp
    · rw [if_neg (by
        rintro ⟨-, ht⟩
        have ht' : [c] = [a] := ht
        injection ht' with h1
        exact h h1)]
      rw [ih]
      simp [h]

/-- The five chained escapes act characterwise: `escapeSpecials` is the
concatenation of `escCharSpec` over the string. -/
theorem escapeSpecials_flatMap : ∀ t, escapeSpecials t = t.flatMap escCharSpec := by
  intro t
  unfold escapeSpecials
  rw [pyReplace_single, pyReplace_single, pyReplace_single, pyReplace_single,
    pyReplace_single, List.bind_assoc, List.bind_assoc, List.bind_assoc,
    List.bind_assoc]
  congr 1
  funext c
  by_cases h1 : c = '&'
  · subst h1; rfl
  · by_cases h2 : c = '<'
    · subst h2; rfl
    · by_cases h3 : c = '>'
      · subst h3; rfl
      · by_cases h4 : c = '"'
        · subst h4; rfl
        · by_cases h5 : c = '\''
          · subst h5; rfl
          · simp [escCharSpec, h1, h2, h3, h4, h5]

theorem containsTag_tail (pat : List Char) (c : Char) (cs : List Char)
    (h : containsTag pat (c :: cs) = false) : containsTag pat cs = false := by
  rw [containsTag] at h
  exact (Bool.or_eq_false_iff.mp h).2

/-- If `pat` sits at offset `d` of `r`, then `containsTag` finds it. -/
theorem containsTag_of_at (pat : List Char) (hpat : pat ≠ []) :
    ∀ (r : List Char) (d : Nat), (r.drop d).take pat.length = pat →
      containsTag pat r = true := by
  intro r
  induction r with
  | nil =>
    intro d h
    simp only [List.drop_nil, List.take_nil] at h
    exact absurd h.symm hpat
  | cons c cs ih =>
    intro d h
    rw [containsTag]
    cases d with
    | zero =>
      simp only [List.drop_zero] at h
      rw [h]
      simp
    | succ d =>
      rw [List.drop_succ_cons] at h
      rw [ih d h]
      simp

/-- Variant of head-mismatch skipping keyed on `pat.head?`, convenient
for rewriting with a named pattern. -/
theorem pyReplace_skip_headne (pat rep : List Char) (p : Char)
    (hp : pat.head? = some p) :
    ∀ (pre u : List Char), (∀ c ∈ pre, c ≠ p) →
      pyReplace pat rep (pre ++ u) = pre ++ pyReplace pat rep u := by
  intro pre
  induction pre with
  | nil => intro u _; rfl
  | cons c pre' ih =>
    intro u H
    have hne : ¬ (pat ≠ [] ∧ (c :: (pre' ++ u)).take pat.length = pat) := by
      rintro ⟨-, ht⟩
      cases pat with
      | nil => simp at hp
      | cons q qs =>
        rw [List.length_cons, List.take_succ_cons] at ht
        injection ht with h1 h2
        rw [List.head?_cons, Option.some.injEq] at hp
        exact H c (List.mem_cons_self _ _) (hp ▸ h1)
    rw [List.cons_append, pyReplace_skip _ _ _ _ hne,
      ih u (fun d hd => H d (List.mem_cons_of_mem _ hd))]
    rfl

/-- `escCharSpec` either keeps a non-special character or produces one of
the five entities (each of which starts with `&`). -/
theorem escCharSpec_cases (c : Char) :
    (escCharSpec c = [c] ∧ c ≠ '&' ∧ c ≠ '<' ∧ c ≠ '>' ∧ c ≠ '"' ∧ c ≠ '\'') ∨
    escCharSpec c = "&amp;".toList ∨ escCharSpec c = "&lt;".toList ∨
    escCharSpec c = "&gt;".toList ∨ escCharSpec c = "&quot;".toList ∨
    escCharSpec c = "&#39;".toList := by
  unfold escCharSpec
  split_ifs with a1 a2 a3 a4 a5
  · exact Or.inr (Or.inl rfl)
  · exact Or.inr (Or.inr (Or.inl rfl))
  · exact Or.inr (Or.inr (Or.inr (Or.inl rfl)))
  · exact Or.inr (Or.inr (Or.inr (Or.inr (Or.inl rfl))))
  · exact Or.inr (Or.inr (Or.inr (Or.inr (Or.inr rfl))))
  · exact Or.inl ⟨rfl, a1, a2, a3, a4, a5⟩

/-- If the tag-to-placeholder pass's output starts with an
underscore-free block `p`, then the input already started with `p`. -/
theorem front_no_underscore : ∀ (p : List Char), '_' ∉ p → ∀ (r : List Char),
    (pyReplace bOpenTag bOpenPh r).take p.length = p → r.take p.length = p := by
  intro p
  induction p with
  | nil => intro _ r _; rfl
  | cons q p' ih =>
    intro hmem r h
    by_cases h0 : bOpenTag ≠ [] ∧ r.take bOpenTag.length = bOpenTag
    · obtain ⟨t, rfl⟩ : ∃ t, r = bOpenTag ++ t :=
        ⟨r.drop bOpenTag.length, by
          nth_rewrite 1 [← h0.2]
          exact (List.take_append_drop _ r).symm⟩
      rw [pyReplace_match bOpenTag bOpenPh t (by decide)] at h
      rw [show bOpenPh ++ pyReplace bOpenTag bOpenPh t =
        '_' :: (bOpenPh.tail ++ pyReplace bOpenTag bOpenPh t) from rfl] at h
      rw [List.length_cons, List.take_succ_cons] at h
      injection h with h1 h2
      exact absurd (h1 ▸ List.mem_cons_self q p') hmem
    · cases r with
      | nil =>
        exact absurd (show ([] : List Char) = q :: p' from h) (by simp)
      | cons c1 r1 =>
        rw [pyReplace_skip _ _ _ _ h0] at h
        rw [List.length_cons, List.take_succ_cons] at h
        injection h with hc htl
        have hr1 := ih (fun hm => hmem (List.mem_cons_of_mem _ hm)) r1 htl
        rw [List.length_cons, List.take_succ_cons, hc, hr1]

/-- Phase A: the two tag-to-placeholder replaces act as the left-to-right
tag scan emitting placeholders. -/
theorem protect_eq_stage1 : ∀ s,
    pyReplace bCloseTag bClosePh (pyReplace bOpenTag bOpenPh s) =
      stageRun bOpenPh bClosePh (fun c => [c]) s := by
  apply escRec
  · rfl
  · intro r IH
    calc pyReplace bCloseTag bClosePh (pyReplace bOpenTag bOpenPh ('<' :: 'b' :: '>' :: r))
        = pyReplace bCloseTag bClosePh (bOpenPh ++ pyReplace bOpenTag bOpenPh r) := by
          rw [show ('<' :: 'b' :: '>' :: r) = bOpenTag ++ r from rfl,
            pyReplace_match bOpenTag bOpenPh r (by decide)]
      _ = bOpenPh ++ pyReplace bCloseTag bClosePh (pyReplace bOpenTag bOpenPh r) :=
          pyReplace_skip_headne bCloseTag bClosePh '<' rfl bOpenPh _ (by decide)
      _ = bOpenPh ++ stageRun bOpenPh bClosePh (fun c => [c]) r := by rw [IH]
      _ = stageRun bOpenPh bClosePh (fun c => [c]) ('<' :: 'b' :: '>' :: r) :=
          (stageRun_op _ _ _ r).symm
  · intro r IH
    have hstep1 : pyReplace bOpenTag bOpenPh ('<' :: '/' :: 'b' :: '>' :: r) =
        '<' :: pyReplace bOpenTag bOpenPh ('/' :: 'b' :: '>' :: r) :=
      pyReplace_skip _ _ _ _ (by
        rintro ⟨-, ht⟩
        exact absurd (show (['<', '/', 'b'] : List Char) = bOpenTag from ht) (by decide))
    have hstep2 : pyReplace bOpenTag bOpenPh ('/' :: 'b' :: '>' :: r) =
        ['/', 'b', '>'] ++ pyReplace bOpenTag bOpenPh r := by
      rw [show ('/' :: 'b' :: '>' :: r) = ['/', 'b', '>'] ++ r from rfl,
        pyReplace_skip_headne bOpenTag bOpenPh '<' rfl ['/', 'b', '>'] r (by decide)]
    calc pyReplace bCloseTag bClosePh (pyReplace bOpenTag bOpenPh ('<' :: '/' :: 'b' :: '>' :: r))
        = pyReplace bCloseTag bClosePh (bCloseTag ++ pyReplace bOpenTag bOpenPh r) := by
          rw [hstep1, hstep2]
          rfl
      _ = bClosePh ++ pyReplace bCloseTag bClosePh (pyReplace bOpenTag bOpenPh r) :=
          pyReplace_match bCloseTag bClosePh _ (by decide)
      _ = bClosePh ++ stageRun bOpenPh bClosePh (fun c => [c]) r := by rw [IH]
      _ = stageRun bOpenPh bClosePh (fun c => [c]) ('<' :: '/' :: 'b' :: '>' :: r) :=
          (stageRun_cl _ _ _ r).symm
  · intro c r IH hOT hCT
    have hin : pyReplace bOpenTag bOpenPh (c :: r) = c :: pyReplace bOpenTag bOpenPh r :=
      pyReplace_skip _ _ _ _ (by rintro ⟨-, ht⟩; exact hOT ht)
    have hout : pyReplace bCloseTag bClosePh (c :: pyReplace bOpenTag bOpenPh r) =
        c :: pyReplace bCloseTag bClosePh (pyReplace bOpenTag bOpenPh r) := by
      apply pyReplace_skip
      rintro ⟨-, ht⟩
      have ht' : c :: (pyReplace bOpenTag bOpenPh r).take 3 = '<' :: ['/', 'b', '>'] := ht
      injection ht' with hc htl
      have hr3 := front_no_underscore ['/', 'b', '>'] (by decide) r htl
      refine hCT ?_
      have hr3' : List.take 3 r = ['/', 'b', '>'] := hr3
      rw [show (c :: r).take 4 = c :: r.take 3 from rfl, hc, hr3']
      rfl
    rw [hin, hout, IH, stageRun_chr _ _ _ _ _ hOT hCT]
    rfl

/-- Phase B: escaping the protected string escapes exactly the literal
characters, leaving both placeholders intact. -/
theorem escape_eq_stage2 : ∀ s,
    escapeSpecials (stageRun bOpenPh bClosePh (fun c => [c]) s) =
      stageRun bOpenPh bClosePh escCharSpec s := by
  apply escRec
  · rfl
  · intro r IH
    rw [stageRun_op, stageRun_op, escapeSpecials_flatMap, List.flatMap_append,
      ← escapeSpecials_flatMap (stageRun bOpenPh bClosePh (fun c => [c]) r), IH]
    congr 1
  · intro r IH
    rw [stageRun_cl, stageRun_cl, escapeSpecials_flatMap, List.flatMap_append,
      ← escapeSpecials_flatMap (stageRun bOpenPh bClosePh (fun c => [c]) r), IH]
    congr 1
  · intro c r IH hOT hCT
    rw [stageRun_chr _ _ _ _ _ hOT hCT, stageRun_chr _ _ _ _ _ hOT hCT,
      escapeSpecials_flatMap, List.flatMap_append,
      ← escapeSpecials_flatMap (stageRun bOpenPh bClosePh (fun c => [c]) r), IH]
    congr 1
    simp

/-- `escCharSpec c` is either the literal non-`<` character or an entity
starting with `&` that contains neither `_` nor `<`. -/
theorem escCharSpec_shape (c : Char) :
    (escCharSpec c = [c] ∧ c ≠ '<') ∨
    ∃ t, escCharSpec c = '&' :: t ∧ ('_' ∉ ('&' :: t)) ∧ ('<' ∉ ('&' :: t)) := by
  rcases escCharSpec_cases c with ⟨h', -, h2, -⟩ | h' | h' | h' | h' | h'
  · exact Or.inl ⟨h', h2⟩
  · exact Or.inr ⟨"amp;".toList, h', by decide, by decide⟩
  · exact Or.inr ⟨"lt;".toList, h', by decide, by decide⟩
  · exact Or.inr ⟨"gt;".toList, h', by decide, by decide⟩
  · exact Or.inr ⟨"quot;".toList, h', by decide, by decide⟩
  · exact Or.inr ⟨"#39;".toList, h', by decide, by decide⟩

/-- Danger analysis for the `___BOLD_OPEN___` restore pass: if the
escaped protected form of `r` starts with a proper suffix of the open
placeholder (dropping `1 ≤ i ≤ 11` leading characters), then `r` itself
starts with the corresponding placeholder characters — in particular `r`
spells out part of `BOLD_OPEN` literally. -/
theorem dangerOpen : ∀ (r : List Char), ∀ i : Nat, 1 ≤ i → i ≤ 11 →
    (stageRun bOpenPh bClosePh escCharSpec r).take (15 - i) = bOpenPh.drop i →
    r.take (12 - i) = (bOpenPh.drop i).take (12 - i) := by
  apply escRec (motive := fun r => ∀ i : Nat, 1 ≤ i → i ≤ 11 →
    (stageRun bOpenPh bClosePh escCharSpec r).take (15 - i) = bOpenPh.drop i →
    r.take (12 - i) = (bOpenPh.drop i).take (12 - i))
  · intro i h1 h2 h
    rw [stageRun_nil] at h
    simp only [List.take_nil] at h
    interval_cases i <;> simp [bOpenPh] at h
  · intro r IH i h1 h2 h
    rw [stageRun_op] at h
    interval_cases i <;> simp [bOpenPh] at h
  · intro r IH i h1 h2 h
    rw [stageRun_cl] at h
    interval_cases i <;> simp [bOpenPh, bClosePh] at h
  · intro c r IH hOT hCT i h1 h2 h
    rw [stageRun_chr _ _ _ _ _ hOT hCT] at h
    have hiOP : i < bOpenPh.length := by simp [bOpenPh]; omega
    rcases escCharSpec_shape c with ⟨he, -⟩ | ⟨t, he, -, -⟩
    · rw [he, List.singleton_append,
        List.take_cons (show 0 < 15 - i by omega),
        List.drop_eq_getElem_cons hiOP] at h
      injection h with hc htl
      by_cases hi10 : i ≤ 10
      · rw [show 15 - i - 1 = 15 - (i + 1) from by omega] at htl
        have hres := IH (i + 1) (by omega) (by omega) htl
        rw [List.drop_eq_getElem_cons hiOP,
          show 12 - i = (12 - (i + 1)) + 1 from by omega,
          List.take_succ_cons, List.take_succ_cons, hc, hres]
      · have hi11 : i = 11 := by omega
        subst hi11
        rw [List.drop_eq_getElem_cons hiOP, hc]
        rfl
    · rw [he, List.cons_append,
        List.take_cons (show 0 < 15 - i by omega),
        List.drop_eq_getElem_cons hiOP] at h
      injection h with hc htl
      have hmem : ('&' : Char) ∈ bOpenPh := hc ▸ List.getElem_mem hiOP
      exact absurd hmem (by decide)

/-- Danger analysis for the `___BOLD_CLOSE___` restore pass, on the
half-restored form (open tags back, close placeholders still in). -/
theorem dangerClose : ∀ (r : List Char), ∀ i : Nat, 1 ≤ i → i ≤ 12 →
    (stageRun bOpenTag bClosePh escCharSpec r).take (16 - i) = bClosePh.drop i →
    r.take (13 - i) = (bClosePh.drop i).take (13 - i) := by
  apply escRec (motive := fun r => ∀ i : Nat, 1 ≤ i → i ≤ 12 →
    (stageRun bOpenTag bClosePh escCharSpec r).take (16 - i) = bClosePh.drop i →
    r.take (13 - i) = (bClosePh.drop i).take (13 - i))
  · intro i h1 h2 h
    rw [stageRun_nil] at h
    simp only [List.take_nil] at h
    interval_cases i <;> simp [bClosePh] at h
  · intro r IH i h1 h2 h
    rw [stageRun_op] at h
    have hiCP : i < bClosePh.length := by simp [bClosePh]; omega
    rw [show (bOpenTag ++ stageRun bOpenTag bClosePh escCharSpec r) =
      '<' :: ('b' :: '>' :: stageRun bOpenTag bClosePh escCharSpec r) from rfl,
      List.take_cons (show 0 < 16 - i by omega),
      List.drop_eq_getElem_cons hiCP] at h
    injection h with hc htl
    have hmem : ('<' : Char) ∈ bClosePh := hc ▸ List.getElem_mem hiCP
    exact absurd hmem (by decide)
  · intro r IH i h1 h2 h
    rw [stageRun_cl] at h
    interval_cases i <;> simp [bClosePh] at h
  · intro c r IH hOT hCT i h1 h2 h
    rw [stageRun_chr _ _ _ _ _ hOT hCT] at h
    have hiCP : i < bClosePh.length := by simp [bClosePh]; omega
    rcases escCharSpec_shape c with ⟨he, -⟩ | ⟨t, he, -, -⟩
    · rw [he, List.singleton_append,
        List.take_cons (show 0 < 16 - i by omega),
        List.drop_eq_getElem_cons hiCP] at h
      injection h with hc htl
      by_cases hi11 : i ≤ 11
      · rw [show 16 - i - 1 = 16 - (i + 1) from by omega] at htl
        have hres := IH (i + 1) (by omega) (by omega) htl
        rw [List.drop_eq_getElem_cons hiCP,
          show 13 - i = (13 - (i + 1)) + 1 from by omega,
          List.take_succ_cons, List.take_succ_cons, hc, hres]
      · have hi12 : i = 12 := by omega
        subst hi12
        rw [List.drop_eq_getElem_cons hiCP, hc]
        rfl
    · rw [he, List.cons_append,
        List.take_cons (show 0 < 16 - i by omega),
        List.drop_eq_getElem_cons hiCP] at h
      injection h with hc htl
      have hmem : ('&' : Char) ∈ bClosePh := hc ▸ List.getElem_mem hiCP
      exact absurd hmem (by decide)

/-- A danger-prefix hit for the open placeholder (dropping `1 ≤ i ≤ 3`
characters) forces a literal `BOLD_OPEN` in the input. -/
theorem dangerOpen_contains (r : List Char) (i : Nat) (h1 : 1 ≤ i) (h3 : i ≤ 3)
    (h : (stageRun bOpenPh bClosePh escCharSpec r).take (15 - i) = bOpenPh.drop i) :
    containsTag "BOLD_OPEN".toList r = true := by
  have hres := dangerOpen r i h1 (by omega) h
  apply containsTag_of_at _ (by decide) r (3 - i)
  calc (r.drop (3 - i)).take ("BOLD_OPEN".toList).length
      = (r.drop (3 - i)).take (12 - i - (3 - i)) := by
        rw [show 12 - i - (3 - i) = ("BOLD_OPEN".toList).length from by
          simp; omega]
    _ = (r.take (12 - i)).drop (3 - i) := (List.drop_take _ _ _).symm
    _ = ((bOpenPh.drop i).take (12 - i)).drop (3 - i) := by rw [hres]
    _ = "BOLD_OPEN".toList := by interval_cases i <;> decide

/-- A danger-prefix hit for the close placeholder (dropping one
character) forces a literal `BOLD_CLOSE` in the input. -/
theorem dangerClose_contains (r : List Char)
    (h : (stageRun bOpenTag bClosePh escCharSpec r).take 15 = bClosePh.drop 1) :
    containsTag "BOLD_CLOSE".toList r = true := by
  have hres := dangerClose r 1 (by decide) (by decide) (by simpa using h)
  apply containsTag_of_at _ (by decide) r 2
  calc (r.drop 2).take ("BOLD_CLOSE".toList).length
      = (r.drop 2).take (12 - 2) := by
        rw [show 12 - 2 = ("BOLD_CLOSE".toList).length from by simp]
    _ = (r.take 12).drop 2 := (List.drop_take _ _ _).symm
    _ = ((bClosePh.drop 1).take 12).drop 2 := by
        rw [show r.take 12 = (bClosePh.drop 1).take (13 - 1) from hres]
    _ = "BOLD_CLOSE".toList := by decide

/-- Phase C: restoring the open placeholder rewrites exactly the
placeholder blocks back to `<b>`, provided the input never spelled
`BOLD_OPEN` literally. -/
theorem restore1_eq : ∀ r, containsTag "BOLD_OPEN".toList r = false →
    pyReplace bOpenPh bOpenTag (stageRun bOpenPh bClosePh escCharSpec r) =
      stageRun bOpenTag bClosePh escCharSpec r := by
  apply escRec (motive := fun r => containsTag "BOLD_OPEN".toList r = false →
    pyReplace bOpenPh bOpenTag (stageRun bOpenPh bClosePh escCharSpec r) =
      stageRun bOpenTag bClosePh escCharSpec r)
  · intro _; rfl
  · intro r IH hS
    have hS' : containsTag "BOLD_OPEN".toList r = false :=
      containsTag_tail _ _ _ (containsTag_tail _ _ _ (containsTag_tail _ _ _ hS))
    rw [stageRun_op, pyReplace_match bOpenPh bOpenTag _ (by decide), IH hS',
      stageRun_op]
  · intro r IH hS
    have hS' : containsTag "BOLD_OPEN".toList r = false :=
      containsTag_tail _ _ _ (containsTag_tail _ _ _
        (containsTag_tail _ _ _ (containsTag_tail _ _ _ hS)))
    rw [stageRun_cl]
    have hskip : pyReplace bOpenPh bOpenTag
        (bClosePh ++ stageRun bOpenPh bClosePh escCharSpec r) =
        bClosePh ++ pyReplace bOpenPh bOpenTag
          (stageRun bOpenPh bClosePh escCharSpec r) := by
      apply pyReplace_skip_block bOpenPh bOpenTag (by decide)
      intro j hj h
      have hj16 : j < 16 := by simpa [bClosePh] using hj
      interval_cases j <;> simp [bClosePh, bOpenPh] at h
      · have hcont := dangerOpen_contains r 3 (by decide) (by decide)
          (by simpa [bOpenPh] using h)
        rw [hS'] at hcont
        exact absurd hcont (by simp)
      · have hcont := dangerOpen_contains r 2 (by decide) (by decide)
          (by simpa [bOpenPh] using h)
        rw [hS'] at hcont
        exact absurd hcont (by simp)
      · have hcont := dangerOpen_contains r 1 (by decide) (by decide)
          (by simpa [bOpenPh] using h)
        rw [hS'] at hcont
        exact absurd hcont (by simp)
    rw [hskip, IH hS', stageRun_cl]
  · intro c r IH hOT hCT hS
    have hS' : containsTag "BOLD_OPEN".toList r = false := containsTag_tail _ _ _ hS
    rw [stageRun_chr _ _ _ _ _ hOT hCT, stageRun_chr _ _ _ _ _ hOT hCT]
    rcases escCharSpec_shape c with ⟨he, -⟩ | ⟨t, he, hu, -⟩
    · rw [he, List.singleton_append, List.singleton_append]
      by_cases hc : c = '_'
      · subst hc
        have hcond : ¬ (bOpenPh ≠ [] ∧
            ('_' :: stageRun bOpenPh bClosePh escCharSpec r).take bOpenPh.length =
              bOpenPh) := by
          rintro ⟨-, ht⟩
          have ht2 : '_' :: (stageRun bOpenPh bClosePh escCharSpec r).take 14 =
              '_' :: ('_' :: '_' :: 'B' :: 'O' :: 'L' :: 'D' :: '_' :: 'O' :: 'P' ::
                'E' :: 'N' :: '_' :: '_' :: ['_']) := ht
          injection ht2 with h3 h4
          have hcont := dangerOpen_contains r 1 (by decide) (by decide) h4
          rw [hS'] at hcont
          exact absurd hcont (by simp)
        rw [pyReplace_skip _ _ _ _ hcond, IH hS']
      · have hcond : ¬ (bOpenPh ≠ [] ∧
            (c :: stageRun bOpenPh bClosePh escCharSpec r).take bOpenPh.length =
              bOpenPh) := by
          rintro ⟨-, ht⟩
          have ht2 : c :: (stageRun bOpenPh bClosePh escCharSpec r).take 14 =
              '_' :: ('_' :: '_' :: 'B' :: 'O' :: 'L' :: 'D' :: '_' :: 'O' :: 'P' ::
                'E' :: 'N' :: '_' :: '_' :: ['_']) := ht
          injection ht2 with h3 h4
          exact hc h3
        rw [pyReplace_skip _ _ _ _ hcond, IH hS']
    · rw [he, List.cons_append,
        show '&' :: (t ++ stageRun bOpenPh bClosePh escCharSpec r) =
          ('&' :: t) ++ stageRun bOpenPh bClosePh escCharSpec r from rfl,
        pyReplace_skip_headne bOpenPh bOpenTag '_' rfl ('&' :: t) _
          (fun d hd hdeq => hu (hdeq ▸ hd)),
        IH hS']

/-- Phase D: restoring the close placeholder rewrites exactly the
placeholder blocks back to `</b>`, provided the input never spelled
`BOLD_CLOSE` literally. -/
theorem restore2_eq : ∀ r, containsTag "BOLD_CLOSE".toList r = false →
    pyReplace bClosePh bCloseTag (stageRun bOpenTag bClosePh escCharSpec r) =
      stageRun bOpenTag bCloseTag escCharSpec r := by
  apply escRec (motive := fun r => containsTag "BOLD_CLOSE".toList r = false →
    pyReplace bClosePh bCloseTag (stageRun bOpenTag bClosePh escCharSpec r) =
      stageRun bOpenTag bCloseTag escCharSpec r)
  · intro _; rfl
  · intro r IH hS
    have hS' : containsTag "BOLD_CLOSE".toList r = false :=
      containsTag_tail _ _ _ (containsTag_tail _ _ _ (containsTag_tail _ _ _ hS))
    rw [stageRun_op, stageRun_op,
      pyReplace_skip_headne bClosePh bCloseTag '_' rfl bOpenTag _ (by decide),
      IH hS']
  · intro r IH hS
    have hS' : containsTag "BOLD_CLOSE".toList r = false :=
      containsTag_tail _ _ _ (containsTag_tail _ _ _
        (containsTag_tail _ _ _ (containsTag_tail _ _ _ hS)))
    rw [stageRun_cl, pyReplace_match bClosePh bCloseTag _ (by decide), IH hS',
      stageRun_cl]
  · intro c r IH hOT hCT hS
    have hS' : containsTag "BOLD_CLOSE".toList r = false := containsTag_tail _ _ _ hS
    rw [stageRun_chr _ _ _ _ _ hOT hCT, stageRun_chr _ _ _ _ _ hOT hCT]
    rcases escCharSpec_shape c with ⟨he, -⟩ | ⟨t, he, hu, -⟩
    · rw [he, List.singleton_append, List.singleton_append]
      by_cases hc : c = '_'
      · subst hc
        have hcond : ¬ (bClosePh ≠ [] ∧
            ('_' :: stageRun bOpenTag bClosePh escCharSpec r).take bClosePh.length =
              bClosePh) := by
          rintro ⟨-, ht⟩
          have ht2 : '_' :: (stageRun bOpenTag bClosePh escCharSpec r).take 15 =
              '_' :: ('_' :: '_' :: 'B' :: 'O' :: 'L' :: 'D' :: '_' :: 'C' :: 'L' ::
                'O' :: 'S' :: 'E' :: '_' :: '_' :: ['_']) := ht
          injection ht2 with h3 h4
          have hcont := dangerClose_contains r h4
          rw [hS'] at hcont
          exact absurd hcont (by simp)
        rw [pyReplace_skip _ _ _ _ hcond, IH hS']
      · have hcond : ¬ (bClosePh ≠ [] ∧
            (c :: stageRun bOpenTag bClosePh escCharSpec r).take bClosePh.length =
              bClosePh) := by
          rintro ⟨-, ht⟩
          have ht2 : c :: (stageRun bOpenTag bClosePh escCharSpec r).take 15 =
              '_' :: ('_' :: '_' :: 'B' :: 'O' :: 'L' :: 'D' :: '_' :: 'C' :: 'L' ::
                'O' :: 'S' :: 'E' :: '_' :: '_' :: ['_']) := ht
          injection ht2 with h3 h4
          exact hc h3
        rw [pyReplace_skip _ _ _ _ hcond, IH hS']
    · rw [he, List.cons_append,
        show '&' :: (t ++ stageRun bOpenTag bClosePh escCharSpec r) =
          ('&' :: t) ++ stageRun bOpenTag bClosePh escCharSpec r from rfl,
        pyReplace_skip_headne bClosePh bCloseTag '_' rfl ('&' :: t) _
          (fun d hd hdeq => hu (hdeq ▸ hd)),
        IH hS']

theorem onlyBoldTags_skip (pre : List Char) (hpre : '<' ∉ pre) :
    ∀ X, onlyBoldTags (pre ++ X) = onlyBoldTags X := by
  induction pre with
  | nil => intro X; rfl
  | cons d pre' ih =>
    intro X
    have hd : d ≠ '<' := fun h => hpre (h ▸ List.mem_cons_self _ _)
    rw [List.cons_append, onlyBoldTags, if_neg hd, Bool.true_and,
      ih (fun h => hpre (List.mem_cons_of_mem _ h)) X]

theorem onlyBoldTags_specEscape : ∀ s,
    onlyBoldTags (stageRun bOpenTag bCloseTag escCharSpec s) = true := by
  apply escRec (motive := fun s =>
    onlyBoldTags (stageRun bOpenTag bCloseTag escCharSpec s) = true)
  · rfl
  · intro r IH
    rw [stageRun_op]
    exact IH
  · intro r IH
    rw [stageRun_cl]
    exact IH
  · intro c r IH hOT hCT
    rw [stageRun_chr _ _ _ _ _ hOT hCT]
    rcases escCharSpec_shape c with ⟨he, hne⟩ | ⟨t, he, -, hlt⟩
    · rw [he, List.singleton_append, onlyBoldTags, if_neg hne, Bool.true_and]
      exact IH
    · rw [he, onlyBoldTags_skip ('&' :: t) hlt]
      exact IH

/-- C10 (amended): for every input that contains neither `BOLD_OPEN` nor
`BOLD_CLOSE` as a substring (in particular neither placeholder token),
`_escape_html` with `preserve_bold=True` returns the input with every
occurrence of `&`, `<`, `>`, `"` and `'` replaced by its HTML entity,
except that literal `<b>` and `</b>` substrings are preserved unchanged;
consequently every `<` of the output starts a literal `<b>` or `</b>`,
so the output contains no other HTML tag. -/
theorem escape_html_spec (s : List Char)
    (h1 : containsTag "BOLD_OPEN".toList s = false)
    (h2 : containsTag "BOLD_CLOSE".toList s = false) :
    escape_html s true = specEscapeBold s ∧
    onlyBoldTags (escape_html s true) = true := by
  have heq : escape_html s true = specEscapeBold s := by
    by_cases hs : s = []
    · subst hs; rfl
    · have hstart : escape_html s true =
        pyReplace bClosePh bCloseTag (pyReplace bOpenPh bOpenTag
          (escapeSpecials (pyReplace bCloseTag bClosePh
            (pyReplace bOpenTag bOpenPh s)))) := by
        rw [escape_html, if_neg hs]
        rfl
      rw [hstart, protect_eq_stage1, escape_eq_stage2, restore1_eq s h1]
      exact restore2_eq s h2
  exact ⟨heq, by rw [heq]; exact onlyBoldTags_specEscape s⟩

/-- Witness for C10: a representative input with bold tags and special
characters is escaped exactly as the specification scan prescribes. -/
theorem escape_html_spec_witness :
    escape_html ("a<b>x & y</b> <i>".toList) true =
      specEscapeBold ("a<b>x & y</b> <i>".toList) ∧
    onlyBoldTags (escape_html ("a<b>x & y</b> <i>".toList) true) = true :=
  escape_html_spec ("a<b>x & y</b> <i>".toList) (by decide) (by decide)

end AiEditor
